import Mathlib

/-!
# Verification of the patchcfg diff/patch engine

A shallow embedding of `src/main.rs` of the `patchcfg` repository.

Text is modelled as `List Char` (named `Str` below).  The Rust string
primitives used by the program (`str::lines`, `str::split_once`,
`str::trim`) are embedded as executable functions on `Str`.  The
`hashbrown::HashMap` values are modelled as association lists where
lookup returns the most recently inserted binding for a key; the program
only ever observes a map through `get`, `insert` and `is_empty`, and all
three are faithfully reflected by this representation.  The filesystem
is modelled as an association list from paths to file contents, with
`fs::read_to_string`, `fs::rename` (which, per its documentation,
replaces the destination if it already exists) and `fs::write` acting on
it; fallible operations return `Option`.
-/

set_option autoImplicit false

namespace Patchcfg

/-- Text, modelled as a list of characters. -/
abbrev Str := List Char

/-- Whitespace recognised by `str::trim` (the ASCII subset actually
relevant to config files). -/
def isWs (c : Char) : Bool :=
  c = ' ' || c = '\t' || c = '\r' || c = '\n'

/-- `str::trim_start`: drop leading whitespace. -/
def trimStart (s : Str) : Str := s.dropWhile isWs

/-- `str::trim_end`: drop trailing whitespace. -/
def trimEnd (s : Str) : Str := (s.reverse.dropWhile isWs).reverse

/-- `str::trim`: drop leading and trailing whitespace. -/
def trim (s : Str) : Str := trimStart (trimEnd s)

/-- `str::split_once(c)`: split at the first occurrence of `c`, which is
dropped; `none` when `c` does not occur. -/
def splitOnceChar (c : Char) : Str → Option (Str × Str)
  | [] => none
  | x :: xs =>
    if x = c then some ([], xs)
    else (splitOnceChar c xs).map (fun p => (x :: p.1, p.2))

/-- Strip one trailing carriage return, as `str::lines` does from each
line that was terminated by `"\r\n"`. -/
def stripCR (s : Str) : Str :=
  if s.getLast? = some '\r' then s.dropLast else s

/-- Split at every newline character (the pieces between the `'\n'`s;
never returns `[]`). -/
def splitNl : Str → List Str
  | [] => [[]]
  | c :: rest =>
    if c = '\n' then [] :: splitNl rest
    else
      match splitNl rest with
      | [] => [[c]]
      | p :: ps => (c :: p) :: ps

/-- `str::lines`: split on `'\n'`, strip a `'\r'` from the end of every
piece that was followed by a `'\n'`, and drop the final piece when the
text ends with a line terminator. -/
def rustLines (s : Str) : List Str :=
  let parts := splitNl s
  parts.dropLast.map stripCR ++
    (match parts.getLast? with
     | some [] => []
     | some l => [l]
     | none => [])

/-- `HashMap::get`: the most recently inserted binding for `k`. -/
def alookup {α : Type} (k : Str) : List (Str × α) → Option α
  | [] => none
  | (k₀, v) :: rest => if k₀ = k then some v else alookup k rest

/-- `HashMap::insert`: record a binding for `k`; `alookup` sees the most
recent insertion, so prepending models the replacement semantics. -/
def ainsert {α : Type} (k : Str) (v : α) (m : List (Str × α)) : List (Str × α) :=
  (k, v) :: m

/-- The body of the `for line in text.lines()` loop of `build_diff`:
split the line at the first `'='`; trim the key; take the raw region
before the first `';'` of the remainder as the value; if the key is in
the patch and the trimmed value differs from the desired value, record
`(desired, raw previous value)` for this key. -/
def diffStep (patch : List (Str × Str)) (diff : List (Str × (Str × Str))) (line : Str) :
    List (Str × (Str × Str)) :=
  match splitOnceChar '=' line with
  | none => diff
  | some (key₀, tail) =>
    let key := trim key₀
    let value :=
      match splitOnceChar ';' tail with
      | some (v, _) => v
      | none => tail
    match alookup key patch with
    | none => diff
    | some change =>
      if trim value = change then diff
      else ainsert key (change, value) diff

/-- `build_diff` of `src/main.rs`: fold `diffStep` over the lines of the
file. -/
def build_diff (patch : List (Str × Str)) (text : Str) : List (Str × (Str × Str)) :=
  (rustLines text).foldl (diffStep patch) []

/-- The raw (untrimmed) value region of the text after the `'='` of an
assignment line: everything before the first `';'`, or the whole
remainder when there is none, mirroring
`tail.split_once(';').unwrap_or((tail, ""))`. -/
def valueRegion (tail : Str) : Str :=
  match splitOnceChar ';' tail with
  | some (v, _) => v
  | none => tail

/-- What one line contributes to the change-set: `some (key, entry)`
when `diffStep` would insert for this line, `none` when it skips it. -/
def lineEntry (patch : List (Str × Str)) (line : Str) : Option (Str × (Str × Str)) :=
  match splitOnceChar '=' line with
  | none => none
  | some (key₀, tail) =>
    let key := trim key₀
    let value := valueRegion tail
    match alookup key patch with
    | none => none
    | some change =>
      if trim value = change then none
      else some (key, (change, value))

/-- Whether a line is an assignment line whose trimmed key is `k`. -/
def hasKey (k m : Str) : Bool :=
  match splitOnceChar '=' m with
  | none => false
  | some (key₀, _) => decide (trim key₀ = k)

/-- One line of the output of `write_modified_file`: an assignment line
whose trimmed key has an entry `(value, original)` in the change-set is
replaced by `key ++ " = " ++ value ++ " ; " ++ original`, with
`" ; " ++ comment` appended when the line had a `';'`-comment; every
other line is copied verbatim.  (The `println!` audit output is a side
effect with no bearing on the written file and is not modelled.) -/
def rewriteLine (changes : List (Str × (Str × Str))) (line : Str) : Str :=
  match splitOnceChar '=' line with
  | none => line
  | some (key₀, tail) =>
    let key := trim key₀
    match alookup key changes with
    | none => line
    | some (value, original) =>
      match splitOnceChar ';' tail with
      | some (_, comment) =>
        key ++ (' ' :: '=' :: ' ' :: value) ++ (' ' :: ';' :: ' ' :: original)
          ++ (' ' :: ';' :: ' ' :: comment)
      | none =>
        key ++ (' ' :: '=' :: ' ' :: value) ++ (' ' :: ';' :: ' ' :: original)

/-- The output buffer accumulated by the loop of `write_modified_file`:
each processed line is appended to `buf` followed by the `'\n'` that
`writeln!` emits. -/
def writeBuf (changes : List (Str × (Str × Str))) (text : Str) : Str :=
  (rustLines text).foldl (fun buf line => buf ++ rewriteLine changes line ++ ['\n']) []

/-- Replace the extension of the file name of a path (`Path::with_extension`
on Unix-style path strings): the extension is the part of the last path
component after its last `'.'`, except that a leading `'.'` of the
component starts no extension, and it is replaced by `'.' :: ext` (or
appended when there is none). -/
def setExt (name ext : Str) : Str :=
  match splitOnceChar '.' name.reverse with
  | some (_, []) => name ++ '.' :: ext
  | some (_, revStem) => revStem.reverse ++ '.' :: ext
  | none => name ++ '.' :: ext

/-- `Path::with_extension`: apply `setExt` to the component after the
last `'/'`. -/
def withExtension (path ext : Str) : Str :=
  match splitOnceChar '/' path.reverse with
  | some (revName, revParent) => revParent.reverse ++ '/' :: setExt revName.reverse ext
  | none => setExt path ext

/-- The filesystem: an association list from paths to file contents,
observed through `alookup`. -/
abbrev FS := List (Str × Str)

/-- `fs::rename`: fails when the source does not exist; otherwise the
content moves to the destination, replacing any existing file there (the
documented behaviour of `std::fs::rename`). -/
def fsRename (src dst : Str) (fs : FS) : Option FS :=
  match alookup src fs with
  | none => none
  | some content => some (ainsert dst content (fs.filter (fun p => !(p.1 = src : Bool))))

/-- `fs::write`: create or replace the file at `path`. -/
def fsWrite (path content : Str) (fs : FS) : FS :=
  ainsert path content fs

/-- The `PathChanges` struct: a target path and the change-set computed
for it. -/
structure PathChanges where
  path : Str
  changes : List (Str × (Str × Str))

/-- `write_modified_file` of `src/main.rs`: read the file, build the
rewritten buffer, rename the original to the `bak.cfg` backup path, then
write the buffer to the original path.  `none` models an `Err` return. -/
def write_modified_file (pc : PathChanges) (fs : FS) : Option FS :=
  match alookup pc.path fs with
  | none => none
  | some text =>
    let buf := writeBuf pc.changes text
    let backup := withExtension pc.path ('b' :: 'a' :: 'k' :: '.' :: 'c' :: 'f' :: 'g' :: [])
    match fsRename pc.path backup fs with
    | none => none
    | some fs₁ => some (fsWrite pc.path buf fs₁)

/-- The `Diff` struct: the per-category path/change-set pairs for one
package. -/
structure Diff where
  engines : PathChanges
  flight_model : PathChanges

/-- `Diff::write_changes`: call `write_modified_file` for each category
whose change-set is non-empty; an empty change-set is skipped. -/
def Diff.write_changes (d : Diff) (fs : FS) : Option FS :=
  match (if d.engines.changes.isEmpty then some fs else write_modified_file d.engines fs) with
  | none => none
  | some fs₁ =>
    if d.flight_model.changes.isEmpty then some fs₁ else write_modified_file d.flight_model fs₁

/-! ## Properties of `splitOnceChar` -/

theorem splitOnceChar_spec {c : Char} {s a b : Str}
    (h : splitOnceChar c s = some (a, b)) : s = a ++ c :: b ∧ c ∉ a := by
  induction s generalizing a b with
  | nil => simp [splitOnceChar] at h
  | cons x xs ih =>
    by_cases hx : x = c
    · rw [splitOnceChar, if_pos hx] at h
      simp only [Option.some.injEq, Prod.mk.injEq] at h
      obtain ⟨ha, hb⟩ := h
      subst ha; subst hb
      simp [hx]
    · rw [splitOnceChar, if_neg hx] at h
      rcases hsplit : splitOnceChar c xs with - | ⟨a', b'⟩
      · rw [hsplit] at h; simp at h
      · rw [hsplit] at h
        simp only [Option.map_some', Option.some.injEq, Prod.mk.injEq] at h
        obtain ⟨ha, hb⟩ := h
        obtain ⟨h1, h2⟩ := ih hsplit
        subst ha; subst hb; subst h1
        refine ⟨rfl, ?_⟩
        intro hmem
        rcases List.mem_cons.mp hmem with hcx | hca
        · exact hx hcx.symm
        · exact h2 hca

theorem splitOnceChar_eq_none {c : Char} {s : Str} :
    splitOnceChar c s = none ↔ c ∉ s := by
  induction s with
  | nil => simp [splitOnceChar]
  | cons x xs ih =>
    by_cases hx : x = c
    · rw [splitOnceChar, if_pos hx]
      simp [hx]
    · rw [splitOnceChar, if_neg hx]
      rcases hsplit : splitOnceChar c xs with - | ⟨a', b'⟩
      · simp only [Option.map_none']
        simp only [hsplit, true_iff] at ih
        simp [ih]
        intro hcx
        exact hx hcx.symm
      · simp only [Option.map_some']
        have hc : c ∈ xs := by
          by_contra hc
          rw [← ih] at hc
          rw [hc] at hsplit
          exact Option.noConfusion hsplit
        constructor
        · intro h; exact Option.noConfusion h
        · intro h
          exact absurd (List.mem_cons_of_mem x hc) h

theorem splitOnceChar_append {c : Char} {a b : Str} (ha : c ∉ a) :
    splitOnceChar c (a ++ c :: b) = some (a, b) := by
  induction a with
  | nil => simp [splitOnceChar]
  | cons x xs ih =>
    rw [List.mem_cons, not_or] at ha
    have hx : ¬ x = c := fun h => ha.1 h.symm
    rw [List.cons_append, splitOnceChar, if_neg hx, ih ha.2]
    rfl

theorem splitOnceChar_append_right {c : Char} {s a b t : Str}
    (h : splitOnceChar c s = some (a, b)) :
    splitOnceChar c (s ++ t) = some (a, b ++ t) := by
  obtain ⟨hs, hc⟩ := splitOnceChar_spec h
  subst hs
  rw [List.append_assoc, List.cons_append]
  exact splitOnceChar_append hc

theorem splitOnceChar_fst_sublist {c : Char} {s a b : Str}
    (h : splitOnceChar c s = some (a, b)) : a.Sublist s := by
  obtain ⟨hs, -⟩ := splitOnceChar_spec h
  subst hs
  exact List.sublist_append_left a (c :: b)

theorem splitOnceChar_snd_sublist {c : Char} {s a b : Str}
    (h : splitOnceChar c s = some (a, b)) : b.Sublist s := by
  obtain ⟨hs, -⟩ := splitOnceChar_spec h
  subst hs
  exact (List.sublist_cons_self c b).trans (List.sublist_append_right a (c :: b))

/-! ## Properties of `trim` -/

theorem dropWhile_head_false {α : Type} {p : α → Bool} {l : List α} {x : α} {xs : List α}
    (h : List.dropWhile p l = x :: xs) : p x = false := by
  induction l with
  | nil => exact absurd h (by simp)
  | cons y ys ih =>
    rw [List.dropWhile_cons] at h
    by_cases hy : p y
    · rw [if_pos hy] at h; exact ih h
    · rw [if_neg hy] at h
      injection h with h1 h2
      subst h1
      simpa using hy

theorem dropWhile_idem {α : Type} (p : α → Bool) (l : List α) :
    List.dropWhile p (List.dropWhile p l) = List.dropWhile p l := by
  induction l with
  | nil => rfl
  | cons x xs ih =>
    rw [List.dropWhile_cons]
    by_cases hx : p x
    · rw [if_pos hx]; exact ih
    · rw [if_neg hx, List.dropWhile_cons, if_neg hx]

theorem trimEnd_concat_ws {c : Char} {s : Str} (h : isWs c) :
    trimEnd (s ++ [c]) = trimEnd s := by
  simp [trimEnd, List.reverse_append, List.dropWhile_cons, h]

theorem trim_concat_ws {c : Char} {s : Str} (h : isWs c) :
    trim (s ++ [c]) = trim s := by
  simp [trim, trimEnd_concat_ws h]

theorem trimStart_sublist (s : Str) : (trimStart s).Sublist s :=
  List.dropWhile_sublist _

theorem trimEnd_sublist (s : Str) : (trimEnd s).Sublist s := by
  have h : (s.reverse.dropWhile isWs).Sublist s.reverse := List.dropWhile_sublist _
  simpa [trimEnd] using h.reverse

theorem trim_sublist (s : Str) : (trim s).Sublist s :=
  (trimStart_sublist (trimEnd s)).trans (trimEnd_sublist s)

theorem trimEnd_getLast_not_ws {s : Str} {c : Char}
    (h : (trimEnd s).getLast? = some c) : isWs c = false := by
  unfold trimEnd at h
  rw [List.getLast?_reverse] at h
  rcases hd : List.dropWhile isWs s.reverse with - | ⟨x, xs⟩
  · rw [hd] at h; exact Option.noConfusion h
  · rw [hd] at h
    simp only [List.head?_cons, Option.some.injEq] at h
    subst h
    exact dropWhile_head_false hd

theorem trimEnd_eq_self {s : Str}
    (h : ∀ c, s.getLast? = some c → isWs c = false) : trimEnd s = s := by
  have key : s.reverse.dropWhile isWs = s.reverse := by
    rcases hr : s.reverse with - | ⟨x, xs⟩
    · rfl
    · have hx : isWs x = false := by
        apply h
        rw [List.getLast?_eq_head?_reverse, hr]
        rfl
      rw [List.dropWhile_cons, if_neg (by simp [hx])]
  unfold trimEnd
  rw [key, List.reverse_reverse]

theorem trimEnd_of_trim_eq {v : Str} (h : trim v = v) : trimEnd v = v := by
  have hlen1 : (trimStart (trimEnd v)).length ≤ (trimEnd v).length :=
    (trimStart_sublist _).length_le
  have hlen2 : (trimEnd v).length ≤ v.length := (trimEnd_sublist _).length_le
  have hge : v.length ≤ (trimEnd v).length := by
    conv_lhs => rw [← h]
    exact hlen1
  exact (trimEnd_sublist v).eq_of_length (Nat.le_antisymm hlen2 hge)

theorem trimStart_of_trim_eq {v : Str} (h : trim v = v) : trimStart v = v := by
  have he := trimEnd_of_trim_eq h
  have : trim v = trimStart v := by rw [trim, he]
  rw [← this, h]

theorem getLast_not_ws_of_trim_eq {v : Str} {c : Char} (h : trim v = v)
    (hc : v.getLast? = some c) : isWs c = false := by
  rw [← trimEnd_of_trim_eq h] at hc
  exact trimEnd_getLast_not_ws hc

theorem trim_idem (s : Str) : trim (trim s) = trim s := by
  have h1 : trimEnd (trim s) = trim s := by
    apply trimEnd_eq_self
    intro c hc
    obtain ⟨t, ht⟩ : (trimStart (trimEnd s)).IsSuffix (trimEnd s) :=
      List.dropWhile_suffix _
    have hlast : (trimEnd s).getLast? = some c := by
      rw [← ht, List.getLast?_append]
      rw [show (trimStart (trimEnd s)).getLast? = some c from hc]
      rfl
    exact trimEnd_getLast_not_ws hlast
  show trimStart (trimEnd (trim s)) = trim s
  rw [h1]
  show trimStart (trimStart (trimEnd s)) = trimStart (trimEnd s)
  exact dropWhile_idem _ _

/-- Padding a trim-stable string with one space on each side does not
change its trimmed form. -/
theorem trim_pad {v : Str} (h : trim v = v) : trim (' ' :: (v ++ [' '])) = v := by
  have hws : isWs ' ' = true := rfl
  have h1 : (' ' :: (v ++ [' '])) = ((' ' :: v) ++ [' ']) := rfl
  rw [h1, trim_concat_ws hws]
  rcases hv : v with - | ⟨x, xs⟩
  · rfl
  · rw [← hv]
    have hvne : v ≠ [] := by rw [hv]; simp
    have hEnd : trimEnd (' ' :: v) = ' ' :: v := by
      apply trimEnd_eq_self
      intro c hc
      have hcons : (' ' :: v).getLast? = v.getLast? := by
        rcases hg : v.getLast? with - | d
        · rw [List.getLast?_eq_none_iff] at hg; exact absurd hg hvne
        · show ([' '] ++ v).getLast? = _
          rw [List.getLast?_append, hg]
          rfl
      rw [hcons] at hc
      exact getLast_not_ws_of_trim_eq h hc
    show trimStart (trimEnd (' ' :: v)) = v
    rw [hEnd]
    show List.dropWhile isWs (' ' :: v) = v
    rw [List.dropWhile_cons, if_pos hws]
    exact trimStart_of_trim_eq h

/-! ## Properties of `alookup` -/

theorem alookup_ainsert_self {α : Type} (k : Str) (v : α) (m : List (Str × α)) :
    alookup k (ainsert k v m) = some v := by
  simp [alookup, ainsert]

theorem alookup_ainsert_ne {α : Type} {k k' : Str} (v : α) (m : List (Str × α))
    (h : ¬ k' = k) : alookup k (ainsert k' v m) = alookup k m := by
  simp [alookup, ainsert, h]

theorem alookup_mem {α : Type} {k : Str} {v : α} {m : List (Str × α)}
    (h : alookup k m = some v) : (k, v) ∈ m := by
  induction m with
  | nil => exact absurd h (by simp [alookup])
  | cons p rest ih =>
    obtain ⟨k₀, v₀⟩ := p
    rw [alookup] at h
    by_cases hk : k₀ = k
    · rw [if_pos hk] at h
      injection h with h1
      subst hk; subst h1
      exact List.mem_cons_self ..
    · rw [if_neg hk] at h
      exact List.mem_cons_of_mem _ (ih h)

/-! ## Properties of the line splitter -/

theorem getLast?_mem' {α : Type} {l : List α} {a : α} (h : l.getLast? = some a) : a ∈ l := by
  induction l with
  | nil => exact absurd h (by simp)
  | cons x xs ih =>
    rcases xs with - | ⟨y, ys⟩
    · simp at h
      simp [h]
    · rw [List.getLast?_cons_cons] at h
      exact List.mem_cons_of_mem _ (ih h)

theorem stripCR_sublist (s : Str) : (stripCR s).Sublist s := by
  unfold stripCR
  by_cases h : s.getLast? = some '\r'
  · rw [if_pos h]; exact List.dropLast_sublist s
  · rw [if_neg h]

theorem mem_splitNl_no_nl {s p : Str} (h : p ∈ splitNl s) : '\n' ∉ p := by
  induction s generalizing p with
  | nil =>
    rw [splitNl] at h
    simp at h
    simp [h]
  | cons c rest ih =>
    rw [splitNl] at h
    by_cases hc : c = '\n'
    · rw [if_pos hc] at h
      rcases List.mem_cons.mp h with h1 | h2
      · subst h1; simp
      · exact ih h2
    · rw [if_neg hc] at h
      rcases hs : splitNl rest with - | ⟨q, qs⟩
      · rw [hs] at h
        simp at h
        subst h
        simp
        intro h1
        exact hc h1.symm
      · rw [hs] at h
        rcases List.mem_cons.mp h with h1 | h2
        · subst h1
          intro hmem
          rcases List.mem_cons.mp hmem with h3 | h4
          · exact hc h3.symm
          · have hq : q ∈ splitNl rest := by rw [hs]; exact List.mem_cons_self ..
            exact ih hq h4
        · have hp : p ∈ splitNl rest := by rw [hs]; exact List.mem_cons_of_mem _ h2
          exact ih hp

theorem mem_rustLines_no_nl {s l : Str} (h : l ∈ rustLines s) : '\n' ∉ l := by
  simp only [rustLines] at h
  rcases List.mem_append.mp h with h1 | h2
  · obtain ⟨p, hp, hpl⟩ := List.mem_map.mp h1
    subst hpl
    have hnp : '\n' ∉ p := mem_splitNl_no_nl (List.mem_of_mem_dropLast hp)
    intro hmem
    exact hnp ((stripCR_sublist p).mem hmem)
  · rcases hg : (splitNl s).getLast? with - | q
    · rw [hg] at h2
      exact absurd h2 (by simp)
    · rcases q with - | ⟨x, xs⟩
      · rw [hg] at h2
        exact absurd h2 (by simp)
      · rw [hg] at h2
        simp at h2
        subst h2
        exact mem_splitNl_no_nl (getLast?_mem' hg)

theorem splitNl_append_line {l rest : Str} (h : '\n' ∉ l) :
    splitNl (l ++ '\n' :: rest) = l :: splitNl rest := by
  induction l with
  | nil =>
    rw [List.nil_append, splitNl, if_pos rfl]
  | cons c cs ih =>
    rw [List.mem_cons, not_or] at h
    have hc : ¬ c = '\n' := fun hcc => h.1 hcc.symm
    rw [List.cons_append, splitNl, if_neg hc, ih h.2]

theorem splitNl_flatten {ms : List Str} (h : ∀ m ∈ ms, '\n' ∉ m) :
    splitNl ((ms.map (fun m => m ++ ['\n'])).flatten) = ms ++ [[]] := by
  induction ms with
  | nil => rw [List.map_nil, List.flatten_nil, splitNl]; rfl
  | cons m ms ih =>
    rw [List.map_cons, List.flatten_cons]
    have hshape :
        (m ++ ['\n']) ++ (ms.map (fun m => m ++ ['\n'])).flatten
          = m ++ '\n' :: (ms.map (fun m => m ++ ['\n'])).flatten := by
      simp
    rw [hshape, splitNl_append_line (h m (List.mem_cons_self ..)),
      ih (fun m' hm' => h m' (List.mem_cons_of_mem _ hm'))]
    rfl

theorem rustLines_flatten {ms : List Str} (h : ∀ m ∈ ms, '\n' ∉ m) :
    rustLines ((ms.map (fun m => m ++ ['\n'])).flatten) = ms.map stripCR := by
  simp only [rustLines, splitNl_flatten h]
  rw [show (ms ++ [([] : Str)]).dropLast = ms from List.dropLast_concat,
    List.getLast?_concat]
  simp

/-- The buffer written by `write_modified_file` is the concatenation of
the processed lines, each terminated by a single `'\n'`. -/
theorem writeBuf_eq_flatten (changes : List (Str × (Str × Str))) (text : Str) :
    writeBuf changes text
      = ((rustLines text).map (fun l => rewriteLine changes l ++ ['\n'])).flatten := by
  unfold writeBuf
  suffices h : ∀ (ms : List Str) (buf : Str),
      ms.foldl (fun buf line => buf ++ rewriteLine changes line ++ ['\n']) buf
        = buf ++ (ms.map fun l => rewriteLine changes l ++ ['\n']).flatten by
    simpa using h (rustLines text) []
  intro ms
  induction ms with
  | nil => intro buf; simp
  | cons m ms ih =>
    intro buf
    rw [List.foldl_cons, ih, List.map_cons, List.flatten_cons]
    simp

theorem rustLines_writeBuf {changes : List (Str × (Str × Str))} {text : Str}
    (h : ∀ m ∈ rustLines text, '\n' ∉ rewriteLine changes m) :
    rustLines (writeBuf changes text)
      = (rustLines text).map (fun m => stripCR (rewriteLine changes m)) := by
  rw [writeBuf_eq_flatten]
  have hmap : (rustLines text).map (fun l => rewriteLine changes l ++ ['\n'])
      = ((rustLines text).map (rewriteLine changes)).map (fun m => m ++ ['\n']) := by
    rw [List.map_map]; rfl
  rw [hmap, rustLines_flatten, List.map_map]
  · rfl
  · intro m hm
    obtain ⟨m', hm', hmm⟩ := List.mem_map.mp hm
    subst hmm
    exact h m' hm'

/-! ## Characterisation of `build_diff` -/

theorem diffStep_eq_lineEntry (patch : List (Str × Str)) (d : List (Str × (Str × Str)))
    (line : Str) :
    diffStep patch d line
      = match lineEntry patch line with
        | none => d
        | some ke => ainsert ke.1 ke.2 d := by
  unfold diffStep lineEntry valueRegion
  rcases splitOnceChar '=' line with - | ⟨key₀, tail⟩
  · rfl
  · simp only
    rcases splitOnceChar ';' tail with - | ⟨v, c⟩
    · rcases alookup (trim key₀) patch with - | change
      · rfl
      · dsimp only
        by_cases hv : trim tail = change
        · rw [if_pos hv, if_pos hv]
        · rw [if_neg hv, if_neg hv]
    · rcases alookup (trim key₀) patch with - | change
      · rfl
      · dsimp only
        by_cases hv : trim v = change
        · rw [if_pos hv, if_pos hv]
        · rw [if_neg hv, if_neg hv]

theorem getLast?_cons_of_ne_nil {α : Type} {l : List α} (a : α) (h : l ≠ []) :
    (a :: l).getLast? = l.getLast? := by
  rcases l with - | ⟨x, xs⟩
  · exact absurd rfl h
  · exact List.getLast?_cons_cons

theorem foldl_diffStep_lookup (patch : List (Str × Str)) (k : Str) :
    ∀ (ms : List Str) (d : List (Str × (Str × Str))),
    alookup k (ms.foldl (diffStep patch) d)
      = match ((ms.filterMap (lineEntry patch)).filter (fun e => decide (e.1 = k))).getLast? with
        | some e => some e.2
        | none => alookup k d := by
  intro ms
  induction ms with
  | nil => intro d; rfl
  | cons m ms ih =>
    intro d
    rw [List.foldl_cons, ih, List.filterMap_cons]
    rcases hm : lineEntry patch m with - | ⟨k', e⟩
    · rw [diffStep_eq_lineEntry, hm]
    · rw [diffStep_eq_lineEntry, hm]
      simp only
      by_cases hk : k' = k
      · rw [List.filter_cons, if_pos (by simp [hk])]
        rcases hrest :
            ((ms.filterMap (lineEntry patch)).filter (fun e => decide (e.1 = k))).getLast?
            with - | e'
        · rw [List.getLast?_eq_none_iff] at hrest
          rw [hrest]
          subst hk
          exact alookup_ainsert_self k' e d
        · have hne : ((ms.filterMap (lineEntry patch)).filter (fun e => decide (e.1 = k))) ≠ [] := by
            intro hnil
            rw [hnil] at hrest
            exact Option.noConfusion hrest
          rw [getLast?_cons_of_ne_nil _ hne, hrest]
      · rw [List.filter_cons, if_neg (by simp [hk])]
        rcases hrest :
            ((ms.filterMap (lineEntry patch)).filter (fun e => decide (e.1 = k))).getLast?
            with - | e'
        · rw [hrest]
          exact alookup_ainsert_ne e d hk
        · rw [hrest]

/-- The change-set entry for a key is the entry of the **last** line
that differs from the patch for that key (and `none` when no line
differs). -/
theorem build_diff_lookup (patch : List (Str × Str)) (text : Str) (k : Str) :
    alookup k (build_diff patch text)
      = (((rustLines text).filterMap (lineEntry patch)).filter
          (fun e => decide (e.1 = k))).getLast?.map Prod.snd := by
  rw [build_diff, foldl_diffStep_lookup]
  rcases hg : (((rustLines text).filterMap (lineEntry patch)).filter
      (fun e => decide (e.1 = k))).getLast? with - | e
  · rw [hg]; rfl
  · rw [hg]; rfl

theorem lineEntry_eq_some {patch : List (Str × Str)} {m k v o : Str}
    (h : lineEntry patch m = some (k, (v, o))) :
    ∃ key₀ tail, splitOnceChar '=' m = some (key₀, tail) ∧ trim key₀ = k ∧
      alookup k patch = some v ∧ o = valueRegion tail ∧ ¬ trim o = v := by
  unfold lineEntry at h
  rcases hsplit : splitOnceChar '=' m with - | ⟨key₀, tail⟩
  · rw [hsplit] at h; exact Option.noConfusion h
  · rw [hsplit] at h
    dsimp only at h
    rcases hpk : alookup (trim key₀) patch with - | change
    · rw [hpk] at h; exact Option.noConfusion h
    · rw [hpk] at h
      dsimp only at h
      by_cases hv : trim (valueRegion tail) = change
      · rw [if_pos hv] at h; exact Option.noConfusion h
      · rw [if_neg hv] at h
        injection h with h1
        obtain ⟨hk, he⟩ := Prod.mk.injEq .. ▸ h1
        obtain ⟨hv', ho⟩ := Prod.mk.injEq .. ▸ he
        refine ⟨key₀, tail, rfl, hk, ?_, ho.symm, ?_⟩
        · rw [← hk, hpk, hv']
        · rw [← ho, ← hv']
          exact hv

theorem lineEntry_some_intro {patch : List (Str × Str)} {m key₀ tail k v : Str}
    (hsplit : splitOnceChar '=' m = some (key₀, tail)) (hk : trim key₀ = k)
    (hpk : alookup k patch = some v) (hne : ¬ trim (valueRegion tail) = v) :
    lineEntry patch m = some (k, (v, valueRegion tail)) := by
  unfold lineEntry
  rw [hsplit]
  dsimp only
  rw [hk, hpk]
  dsimp only
  rw [if_neg hne]

theorem lineEntry_none_of_no_eq {patch : List (Str × Str)} {m : Str}
    (h : splitOnceChar '=' m = none) : lineEntry patch m = none := by
  unfold lineEntry
  rw [h]

theorem lineEntry_none_of_no_key {patch : List (Str × Str)} {m key₀ tail : Str}
    (hsplit : splitOnceChar '=' m = some (key₀, tail))
    (hpk : alookup (trim key₀) patch = none) : lineEntry patch m = none := by
  unfold lineEntry
  rw [hsplit]
  dsimp only
  rw [hpk]

theorem lineEntry_none_of_match {patch : List (Str × Str)} {m key₀ tail v : Str}
    (hsplit : splitOnceChar '=' m = some (key₀, tail))
    (hpk : alookup (trim key₀) patch = some v)
    (hv : trim (valueRegion tail) = v) : lineEntry patch m = none := by
  unfold lineEntry
  rw [hsplit]
  dsimp only
  rw [hpk]
  dsimp only
  rw [if_pos hv]

/-- Every entry of the change-set arises from some line of the file. -/
theorem build_diff_entry {patch : List (Str × Str)} {text k v o : Str}
    (h : alookup k (build_diff patch text) = some (v, o)) :
    ∃ m ∈ rustLines text, lineEntry patch m = some (k, (v, o)) := by
  rw [build_diff_lookup] at h
  rcases hg : (((rustLines text).filterMap (lineEntry patch)).filter
      (fun e => decide (e.1 = k))).getLast? with - | e
  · rw [hg] at h; exact Option.noConfusion h
  · rw [hg] at h
    injection h with h1
    have hmem := List.mem_filter.mp (getLast?_mem' hg)
    obtain ⟨m, hm, hme⟩ := List.mem_filterMap.mp hmem.1
    have hek : e.1 = k := by simpa using hmem.2
    refine ⟨m, hm, ?_⟩
    rw [hme]
    rw [show e = (k, (v, o)) from ?_]
    rcases e with ⟨e1, e2⟩
    simp only at hek h1
    rw [hek, h1]

/-- If a key of the patch has no change-set entry, every assignment line
for that key already carries the desired value. -/
theorem trim_eq_of_no_entry {patch : List (Str × Str)} {text k v : Str}
    (hpk : alookup k patch = some v)
    (hnone : alookup k (build_diff patch text) = none)
    {m key₀ tail : Str} (hm : m ∈ rustLines text)
    (hsplit : splitOnceChar '=' m = some (key₀, tail)) (hkey : trim key₀ = k) :
    trim (valueRegion tail) = v := by
  by_contra hne
  have hle : lineEntry patch m = some (k, (v, valueRegion tail)) :=
    lineEntry_some_intro hsplit hkey hpk hne
  rw [build_diff_lookup] at hnone
  have hmem : (k, (v, valueRegion tail))
      ∈ ((rustLines text).filterMap (lineEntry patch)).filter (fun e => decide (e.1 = k)) := by
    apply List.mem_filter.mpr
    refine ⟨List.mem_filterMap.mpr ⟨m, hm, hle⟩, by simp⟩
  have hne' : ((rustLines text).filterMap (lineEntry patch)).filter
      (fun e => decide (e.1 = k)) ≠ [] := List.ne_nil_of_mem hmem
  rw [Option.map_eq_none', List.getLast?_eq_none_iff] at hnone
  exact hne' hnone

/-- When no line contributes an entry, the change-set is empty. -/
theorem build_diff_eq_nil {patch : List (Str × Str)} {text : Str}
    (h : ∀ m ∈ rustLines text, lineEntry patch m = none) :
    build_diff patch text = [] := by
  rw [build_diff]
  suffices hh : ∀ (ms : List Str), (∀ m ∈ ms, lineEntry patch m = none) →
      ∀ (d : List (Str × (Str × Str))), ms.foldl (diffStep patch) d = d by
    exact hh _ h []
  intro ms
  induction ms with
  | nil => intro _ d; rfl
  | cons m ms ih =>
    intro hall d
    rw [List.foldl_cons, diffStep_eq_lineEntry, hall m (List.mem_cons_self ..)]
    exact ih (fun m' hm' => hall m' (List.mem_cons_of_mem _ hm')) d

/-! ## Parsing rewritten lines -/

theorem valueRegion_sublist (tail : Str) : (valueRegion tail).Sublist tail := by
  unfold valueRegion
  rcases h : splitOnceChar ';' tail with - | ⟨v, c⟩
  · exact List.Sublist.refl tail
  · exact splitOnceChar_fst_sublist h

theorem not_mem_of_sublist {a : Char} {l₁ l₂ : Str} (h : a ∉ l₂) (hs : l₁.Sublist l₂) :
    a ∉ l₁ := fun hm => h (hs.mem hm)

theorem mem_pad3 {a b c x : Char} {l : Str} (h : x ∈ a :: b :: c :: l)
    (hna : ¬ x = a) (hnb : ¬ x = b) (hnc : ¬ x = c) : x ∈ l := by
  simp only [List.mem_cons] at h
  tauto

/-- Splitting a canonical rewritten line at its first `'='`. -/
theorem rewritten_split {A v X : Str} (hA : ('=' : Char) ∉ A) :
    splitOnceChar '=' (A ++ (' ' :: '=' :: ' ' :: v) ++ (' ' :: ';' :: ' ' :: X))
      = some (A ++ [' '], (' ' :: (v ++ [' '])) ++ ';' :: (' ' :: X)) := by
  have hshape : A ++ (' ' :: '=' :: ' ' :: v) ++ (' ' :: ';' :: ' ' :: X)
      = (A ++ [' ']) ++ '=' :: ((' ' :: (v ++ [' '])) ++ ';' :: (' ' :: X)) := by
    simp
  rw [hshape]
  apply splitOnceChar_append
  intro hmem
  rcases List.mem_append.mp hmem with h1 | h2
  · exact hA h1
  · simp at h2

/-- The value region of a canonical rewritten line is the new value
padded with one space on each side. -/
theorem rewritten_valueRegion {v X : Str} (hv : (';' : Char) ∉ v) :
    valueRegion ((' ' :: (v ++ [' '])) ++ ';' :: (' ' :: X)) = ' ' :: (v ++ [' ']) := by
  unfold valueRegion
  rw [splitOnceChar_append]
  intro hmem
  rcases List.mem_cons.mp hmem with h1 | h2
  · exact absurd h1 (by decide)
  · rcases List.mem_append.mp h2 with h3 | h4
    · exact hv h3
    · simp at h4

/-- Removing a trailing carriage return cannot turn a skipped line into
a contributing one. -/
theorem lineEntry_concat_cr {patch : List (Str × Str)} {m : Str}
    (h : lineEntry patch (m ++ ['\r']) = none) : lineEntry patch m = none := by
  rcases hsplit : splitOnceChar '=' m with - | ⟨key₀, tail⟩
  · exact lineEntry_none_of_no_eq hsplit
  · have hsplit2 : splitOnceChar '=' (m ++ ['\r']) = some (key₀, tail ++ ['\r']) :=
      splitOnceChar_append_right hsplit
    rcases hpk : alookup (trim key₀) patch with - | v
    · exact lineEntry_none_of_no_key hsplit hpk
    · apply lineEntry_none_of_match hsplit hpk
      have hmatch : trim (valueRegion (tail ++ ['\r'])) = v := by
        by_contra hne
        have := lineEntry_some_intro hsplit2 rfl hpk hne
        rw [h] at this
        exact Option.noConfusion this
      rcases hsc : splitOnceChar ';' tail with - | ⟨w, c⟩
      · have h1 : splitOnceChar ';' (tail ++ ['\r']) = none := by
          rw [splitOnceChar_eq_none] at hsc ⊢
          intro hmem
          rcases List.mem_append.mp hmem with h2 | h3
          · exact hsc h2
          · simp at h3
        unfold valueRegion at hmatch ⊢
        rw [hsc]
        rw [h1] at hmatch
        dsimp only at hmatch ⊢
        rw [← hmatch, trim_concat_ws (by decide)]
      · have h1 : splitOnceChar ';' (tail ++ ['\r']) = some (w, c ++ ['\r']) :=
          splitOnceChar_append_right hsc
        unfold valueRegion at hmatch ⊢
        rw [hsc]
        rw [h1] at hmatch
        exact hmatch

theorem lineEntry_stripCR {patch : List (Str × Str)} {m : Str}
    (h : lineEntry patch m = none) : lineEntry patch (stripCR m) = none := by
  unfold stripCR
  by_cases hlast : m.getLast? = some '\r'
  · rw [if_pos hlast]
    have hne : m ≠ [] := by
      intro hnil
      rw [hnil] at hlast
      exact Option.noConfusion hlast
    have hlast' : m.getLast hne = '\r' := by
      rw [List.getLast?_eq_getLast m hne] at hlast
      injection hlast
    apply lineEntry_concat_cr
    rw [show m.dropLast ++ ['\r'] = m from by
      conv_rhs => rw [← List.dropLast_append_getLast hne]
      rw [hlast']]
    exact h
  · rw [if_neg hlast]
    exact h

/-- If no patch value contains a newline, no rewritten line contains a
newline. -/
theorem rewriteLine_no_nl {patch : List (Str × Str)} {text : Str}
    (hpatch : ∀ p ∈ patch, ('\n' : Char) ∉ p.2) {m : Str} (hm : m ∈ rustLines text) :
    ('\n' : Char) ∉ rewriteLine (build_diff patch text) m := by
  have hnm : ('\n' : Char) ∉ m := mem_rustLines_no_nl hm
  unfold rewriteLine
  rcases hsplit : splitOnceChar '=' m with - | ⟨key₀, tail⟩
  · exact hnm
  · dsimp only
    rcases hlc : alookup (trim key₀) (build_diff patch text) with - | ⟨v, o⟩
    · exact hnm
    · obtain ⟨m', hm', hle⟩ := build_diff_entry hlc
      obtain ⟨key₀', tail', hsplit', hk', hpk', ho, -⟩ := lineEntry_eq_some hle
      have hnm' : ('\n' : Char) ∉ m' := mem_rustLines_no_nl hm'
      have hkey : ('\n' : Char) ∉ trim key₀ :=
        not_mem_of_sublist hnm ((trim_sublist key₀).trans (splitOnceChar_fst_sublist hsplit))
      have hv : ('\n' : Char) ∉ v := hpatch _ (alookup_mem hpk')
      have ho' : ('\n' : Char) ∉ o := by
        rw [ho]
        exact not_mem_of_sublist hnm'
          ((valueRegion_sublist tail').trans (splitOnceChar_snd_sublist hsplit'))
      rcases h2 : splitOnceChar ';' tail with - | ⟨w, comment⟩ <;> dsimp only <;> intro hmem
      · rcases List.mem_append.mp hmem with h3 | h4
        · rcases List.mem_append.mp h3 with h5 | h6
          · exact hkey h5
          · exact hv (mem_pad3 h6 (by decide) (by decide) (by decide))
        · exact ho' (mem_pad3 h4 (by decide) (by decide) (by decide))
      · have hcm : ('\n' : Char) ∉ comment :=
          not_mem_of_sublist hnm
            ((splitOnceChar_snd_sublist h2).trans (splitOnceChar_snd_sublist hsplit))
        rcases List.mem_append.mp hmem with h3 | h4
        · rcases List.mem_append.mp h3 with h5 | h6
          · rcases List.mem_append.mp h5 with h7 | h8
            · exact hkey h7
            · exact hv (mem_pad3 h8 (by decide) (by decide) (by decide))
          · exact ho' (mem_pad3 h6 (by decide) (by decide) (by decide))
        · exact hcm (mem_pad3 h4 (by decide) (by decide) (by decide))

/-- Under the value conditions, every processed line of the rewritten
file contributes nothing to a second change-set computation. -/
theorem lineEntry_rewrite_none {patch : List (Str × Str)} {text : Str}
    (hpatch : ∀ p ∈ patch, trim p.2 = p.2 ∧ (';' : Char) ∉ p.2)
    {m : Str} (hm : m ∈ rustLines text) :
    lineEntry patch (rewriteLine (build_diff patch text) m) = none := by
  unfold rewriteLine
  rcases hsplit : splitOnceChar '=' m with - | ⟨key₀, tail⟩
  · exact lineEntry_none_of_no_eq hsplit
  · dsimp only
    rcases hlc : alookup (trim key₀) (build_diff patch text) with - | ⟨v, o⟩
    · rcases hpk : alookup (trim key₀) patch with - | pv
      · exact lineEntry_none_of_no_key hsplit hpk
      · exact lineEntry_none_of_match hsplit hpk
          (trim_eq_of_no_entry hpk hlc hm hsplit rfl)
    · obtain ⟨m', hm', hle⟩ := build_diff_entry hlc
      obtain ⟨key₀', tail', hsplit', hk', hpk', ho, -⟩ := lineEntry_eq_some hle
      obtain ⟨hvtrim, hvsemi⟩ := hpatch _ (alookup_mem hpk')
      dsimp only at hvtrim hvsemi
      have hkeq : ('=' : Char) ∉ trim key₀ :=
        not_mem_of_sublist (splitOnceChar_spec hsplit).2 (trim_sublist key₀)
      have hktrim : trim (trim key₀ ++ [' ']) = trim key₀ := by
        rw [trim_concat_ws (by decide), trim_idem]
      rcases h2 : splitOnceChar ';' tail with - | ⟨w, comment⟩ <;> dsimp only
      · apply lineEntry_none_of_match (rewritten_split hkeq) (by rw [hktrim]; exact hpk')
        rw [rewritten_valueRegion hvsemi, trim_pad hvtrim]
      · have hshape : trim key₀ ++ (' ' :: '=' :: ' ' :: v) ++ (' ' :: ';' :: ' ' :: o)
            ++ (' ' :: ';' :: ' ' :: comment)
            = trim key₀ ++ (' ' :: '=' :: ' ' :: v)
              ++ (' ' :: ';' :: ' ' :: (o ++ (' ' :: ';' :: ' ' :: comment))) := by
          simp
        rw [hshape]
        apply lineEntry_none_of_match (rewritten_split hkeq) (by rw [hktrim]; exact hpk')
        rw [rewritten_valueRegion hvsemi, trim_pad hvtrim]

/-- Computing the change-set of the rewritten file yields no entries,
provided every patch value is trim-stable and free of `';'` and
newlines. -/
theorem build_diff_writeBuf {patch : List (Str × Str)} {text : Str}
    (hpatch : ∀ p ∈ patch,
      trim p.2 = p.2 ∧ (';' : Char) ∉ p.2 ∧ ('\n' : Char) ∉ p.2) :
    build_diff patch (writeBuf (build_diff patch text) text) = [] := by
  apply build_diff_eq_nil
  intro m hm
  rw [rustLines_writeBuf
    (fun m₀ hm₀ => rewriteLine_no_nl (fun p hp => (hpatch p hp).2.2) hm₀)] at hm
  obtain ⟨m₀, hm₀, hmeq⟩ := List.mem_map.mp hm
  rw [← hmeq]
  exact lineEntry_stripCR
    (lineEntry_rewrite_none (fun p hp => ⟨(hpatch p hp).1, (hpatch p hp).2.1⟩) hm₀)

/-! ## The backup path differs from the original path -/

theorem append_cons_ne (l : Str) (c : Char) (t : Str) : l ++ c :: t ≠ l := by
  intro h
  have := congrArg List.length h
  simp at this

theorem setExt_ne {name ext : Str} (hext : ('.' : Char) ∈ ext) :
    setExt name ext ≠ name := by
  unfold setExt
  rcases h : splitOnceChar '.' name.reverse with - | ⟨revE, revStem⟩
  · dsimp only
    exact append_cons_ne name '.' ext
  · rcases revStem with - | ⟨x, xs⟩
    · dsimp only
      exact append_cons_ne name '.' ext
    · dsimp only
      obtain ⟨hrev, hnot⟩ := splitOnceChar_spec h
      have hname : name = (x :: xs).reverse ++ '.' :: revE.reverse := by
        have h₁ := congrArg List.reverse hrev
        rw [List.reverse_reverse, List.reverse_append] at h₁
        rw [h₁]
        simp
      intro heq
      rw [hname] at heq
      have h₂ := List.append_cancel_left heq
      injection h₂ with hh h₃
      rw [h₃] at hext
      exact hnot (List.mem_reverse.mp hext)

theorem withExtension_ne {path ext : Str} (hext : ('.' : Char) ∈ ext) :
    withExtension path ext ≠ path := by
  unfold withExtension
  rcases h : splitOnceChar '/' path.reverse with - | ⟨revName, revParent⟩
  · exact setExt_ne hext
  · dsimp only
    obtain ⟨hrev, hnot⟩ := splitOnceChar_spec h
    have hpath : path = revParent.reverse ++ '/' :: revName.reverse := by
      have h₁ := congrArg List.reverse hrev
      rw [List.reverse_reverse, List.reverse_append] at h₁
      rw [h₁]
      simp
    intro heq
    rw [hpath] at heq
    have h₂ := List.append_cancel_left heq
    injection h₂ with hh h₃
    exact setExt_ne hext h₃

/-! ## The annotated output format and the write sequence -/

/-- The exact text of a rewritten assignment line, in both the
no-comment and the comment form. -/
theorem rewriteLine_format {changes : List (Str × (Str × Str))} {line key₀ tail k v o : Str}
    (hsplit : splitOnceChar '=' line = some (key₀, tail)) (hk : trim key₀ = k)
    (hlc : alookup k changes = some (v, o)) :
    (splitOnceChar ';' tail = none →
      rewriteLine changes line = k ++ " = ".data ++ v ++ " ; ".data ++ o)
    ∧ (∀ w c, splitOnceChar ';' tail = some (w, c) →
      rewriteLine changes line
        = k ++ " = ".data ++ v ++ " ; ".data ++ o ++ " ; ".data ++ c) := by
  subst hk
  unfold rewriteLine
  rw [hsplit]
  dsimp only
  rw [hlc]
  dsimp only
  constructor
  · intro h
    rw [h]
    simp
  · intro w c h
    rw [h]
    simp

/-- Computation of `write_modified_file` on a readable file: the rename
moves the old content to the backup path, then the buffer is written to
the original path. -/
theorem write_modified_file_eq {pc : PathChanges} {fs : FS} {text : Str}
    (hread : alookup pc.path fs = some text) :
    write_modified_file pc fs
      = some (fsWrite pc.path (writeBuf pc.changes text)
          (ainsert (withExtension pc.path "bak.cfg".data) text
            (fs.filter (fun p => !(p.1 = pc.path : Bool))))) := by
  simp only [write_modified_file, fsRename, hread]

/-- `write_modified_file` fails without touching anything when the file
cannot be read. -/
theorem write_modified_file_none {pc : PathChanges} {fs : FS}
    (h : alookup pc.path fs = none) : write_modified_file pc fs = none := by
  simp only [write_modified_file, h]

/-! ## Claims -/

/-- C1 (counterexample): the spec's expected outputs are not what the
code produces.  The raw value region of `thrust = 80 ; max` is `" 80 "`
and the raw comment is `" max"`, both interpolated verbatim, so the
output line is `thrust = 100 ;  80  ;  max` (double spaces), not
`thrust = 100 ; 80 ; max`; likewise `mass = 500` yields
`mass = 600 ;  500`, not `mass = 600 ; 500`. -/
theorem claim_C1_counterexample :
    writeBuf (build_diff [("thrust".data, "100".data)] "thrust = 80 ; max".data)
        "thrust = 80 ; max".data = "thrust = 100 ;  80  ;  max\n".data
    ∧ writeBuf (build_diff [("thrust".data, "100".data)] "thrust = 80 ; max".data)
        "thrust = 80 ; max".data ≠ "thrust = 100 ; 80 ; max\n".data
    ∧ writeBuf (build_diff [("mass".data, "600".data)] "mass = 500".data)
        "mass = 500".data = "mass = 600 ;  500\n".data
    ∧ writeBuf (build_diff [("mass".data, "600".data)] "mass = 500".data)
        "mass = 500".data ≠ "mass = 600 ; 500\n".data := by
  refine ⟨by decide, by decide, by decide, by decide⟩

/-- C1 (amended): an assignment line whose trimmed key has a ChangeEntry
`(new_value, old_value)` is replaced by exactly
`"{key} = {new_value} ; {old_value}"` without an original comment and
`"{key} = {new_value} ; {old_value} ; {original_comment_text}"` with
one, where `old_value` is the raw (untrimmed) stored value region and
`original_comment_text` the raw text after the original `';'`.  In
particular `thrust = 80 ; max` with `thrust -> 100` yields
`thrust = 100 ;  80  ;  max` and `mass = 500` with `mass -> 600` yields
`mass = 600 ;  500`. -/
theorem claim_C1 {changes : List (Str × (Str × Str))} {line key₀ tail k v o : Str}
    (hsplit : splitOnceChar '=' line = some (key₀, tail)) (hk : trim key₀ = k)
    (hlc : alookup k changes = some (v, o)) :
    (splitOnceChar ';' tail = none →
      rewriteLine changes line = k ++ " = ".data ++ v ++ " ; ".data ++ o)
    ∧ (∀ w c, splitOnceChar ';' tail = some (w, c) →
      rewriteLine changes line
        = k ++ " = ".data ++ v ++ " ; ".data ++ o ++ " ; ".data ++ c) :=
  rewriteLine_format hsplit hk hlc

theorem claim_C1_witness :
    splitOnceChar '=' "thrust = 80 ; max".data = some ("thrust ".data, " 80 ; max".data)
    ∧ trim "thrust ".data = "thrust".data
    ∧ alookup "thrust".data [("thrust".data, ("100".data, " 80 ".data))]
        = some ("100".data, " 80 ".data)
    ∧ rewriteLine [("thrust".data, ("100".data, " 80 ".data))] "thrust = 80 ; max".data
        = "thrust".data ++ " = ".data ++ "100".data ++ " ; ".data ++ " 80 ".data
          ++ " ; ".data ++ " max".data :=
  ⟨by decide, by decide, by decide,
    (@claim_C1 [("thrust".data, ("100".data, " 80 ".data))] "thrust = 80 ; max".data
      "thrust ".data " 80 ; max".data "thrust".data "100".data " 80 ".data
      (by decide) (by decide) (by decide)).2 " 80 ".data " max".data (by decide)⟩

/-- C2 (counterexample): idempotence fails for an arbitrary
TargetMapping.  With the mapping `k -> "1 "` (desired value carrying a
trailing space) and the file `k = 2\n`, the rewritten file reads
`k = 1  ;  2\n`, whose trimmed current value `1` differs from `1 `, so
the second change-set computation is non-empty. -/
theorem claim_C2_counterexample :
    build_diff [("k".data, "1 ".data)]
      (writeBuf (build_diff [("k".data, "1 ".data)] "k = 2\n".data) "k = 2\n".data) ≠ [] := by
  decide

/-- C2 (amended): for every TargetMapping whose desired values are
whitespace-trim-stable and contain neither `';'` nor a newline, and any
file text, running the Diff Builder on the text produced by the Patch
Rewriter yields an empty ChangeSet: the second run computes no
changes. -/
theorem claim_C2 {patch : List (Str × Str)} {text : Str}
    (hpatch : ∀ p ∈ patch,
      trim p.2 = p.2 ∧ (';' : Char) ∉ p.2 ∧ ('\n' : Char) ∉ p.2) :
    build_diff patch (writeBuf (build_diff patch text) text) = [] :=
  build_diff_writeBuf hpatch

theorem claim_C2_witness :
    (∀ p ∈ [("thrust".data, "100".data)],
      trim p.2 = p.2 ∧ (';' : Char) ∉ p.2 ∧ ('\n' : Char) ∉ p.2)
    ∧ build_diff [("thrust".data, "100".data)]
        (writeBuf (build_diff [("thrust".data, "100".data)] "thrust = 80 ; max\n".data)
          "thrust = 80 ; max\n".data) = [] :=
  ⟨by decide, claim_C2 (by decide)⟩

/-- C3 (counterexample): a pre-existing backup is not an error.  With
`pkg/engines.cfg` containing `k = 1\n` and a pre-existing backup
`pkg/engines.bak.cfg` containing `OLD`, the rewrite succeeds and the
backup now holds the pre-rewrite content `k = 1\n`, silently
overwriting `OLD` (the documented replace semantics of
`std::fs::rename`). -/
theorem claim_C3_counterexample :
    write_modified_file ⟨"pkg/engines.cfg".data, [("k".data, ("2".data, " 1".data))]⟩
        [("pkg/engines.cfg".data, "k = 1\n".data), ("pkg/engines.bak.cfg".data, "OLD".data)]
      = some [("pkg/engines.cfg".data, "k = 2 ;  1\n".data),
              ("pkg/engines.bak.cfg".data, "k = 1\n".data),
              ("pkg/engines.bak.cfg".data, "OLD".data)]
    ∧ alookup "pkg/engines.bak.cfg".data
        [("pkg/engines.cfg".data, "k = 2 ;  1\n".data),
         ("pkg/engines.bak.cfg".data, "k = 1\n".data),
         ("pkg/engines.bak.cfg".data, "OLD".data)] = some "k = 1\n".data
    ∧ some "k = 1\n".data ≠ some "OLD".data := by
  refine ⟨by decide, by decide, by decide⟩

/-- C3 (amended): when the derived backup path already exists, the
rewrite nevertheless succeeds and silently overwrites the pre-existing
backup with the pre-rewrite content; when the target file cannot be
read, the operation fails with an error and no write occurs. -/
theorem claim_C3 {pc : PathChanges} {fs : FS} {text old : Str}
    (hread : alookup pc.path fs = some text)
    (_hbak : alookup (withExtension pc.path "bak.cfg".data) fs = some old) :
    (∃ fs', write_modified_file pc fs = some fs'
      ∧ alookup (withExtension pc.path "bak.cfg".data) fs' = some text)
    ∧ (∀ fs₂ : FS, alookup pc.path fs₂ = none → write_modified_file pc fs₂ = none) := by
  constructor
  · refine ⟨_, write_modified_file_eq hread, ?_⟩
    have hne : withExtension pc.path "bak.cfg".data ≠ pc.path :=
      withExtension_ne (by decide)
    unfold fsWrite
    rw [alookup_ainsert_ne _ _ (fun hh => hne hh.symm), alookup_ainsert_self]
  · intro fs₂ h
    exact write_modified_file_none h

theorem claim_C3_witness :
    alookup "a/x.cfg".data
        [("a/x.cfg".data, "k = 1\n".data), ("a/x.bak.cfg".data, "OLD".data)]
      = some "k = 1\n".data
    ∧ alookup (withExtension "a/x.cfg".data "bak.cfg".data)
        [("a/x.cfg".data, "k = 1\n".data), ("a/x.bak.cfg".data, "OLD".data)]
      = some "OLD".data
    ∧ ((∃ fs', write_modified_file
          ⟨"a/x.cfg".data, [("k".data, ("2".data, " 1".data))]⟩
          [("a/x.cfg".data, "k = 1\n".data), ("a/x.bak.cfg".data, "OLD".data)] = some fs'
        ∧ alookup (withExtension "a/x.cfg".data "bak.cfg".data) fs' = some "k = 1\n".data)
      ∧ (∀ fs₂ : FS, alookup "a/x.cfg".data fs₂ = none →
          write_modified_file ⟨"a/x.cfg".data, [("k".data, ("2".data, " 1".data))]⟩ fs₂
            = none)) :=
  ⟨by decide, by decide,
    @claim_C3 ⟨"a/x.cfg".data, [("k".data, ("2".data, " 1".data))]⟩
      [("a/x.cfg".data, "k = 1\n".data), ("a/x.bak.cfg".data, "OLD".data)]
      "k = 1\n".data "OLD".data (by decide) (by decide)⟩

/-- C4 (counterexample): passthrough is not character-identical
including the line ending.  A file consisting of the opaque line
`abc` terminated by `\r\n` is rewritten as `abc\n`: the content is
reproduced but the `\r\n` terminator is replaced by `\n`. -/
theorem claim_C4_counterexample :
    writeBuf (build_diff [] "abc\r\n".data) "abc\r\n".data = "abc\n".data
    ∧ "abc\n".data ≠ "abc\r\n".data := by
  refine ⟨by decide, by decide⟩

/-- C4 (amended): for every line without `'='`, or whose trimmed key
has no ChangeEntry, the output line content is character-identical to
the input line as produced by the line splitter; each output line is
then terminated by a single `'\n'` regardless of the original line
ending. -/
theorem claim_C4 {changes : List (Str × (Str × Str))} {line : Str}
    (h : match splitOnceChar '=' line with
         | none => True
         | some (key₀, _) => alookup (trim key₀) changes = none) :
    rewriteLine changes line = line
    ∧ ∀ text : Str, writeBuf changes text
        = ((rustLines text).map (fun l => rewriteLine changes l ++ ['\n'])).flatten := by
  constructor
  · unfold rewriteLine
    rcases hsplit : splitOnceChar '=' line with - | ⟨key₀, tail⟩
    · rfl
    · rw [hsplit] at h
      dsimp only at h ⊢
      rw [h]
  · intro text
    exact writeBuf_eq_flatten changes text

theorem claim_C4_witness :
    rewriteLine [("x".data, ("9".data, "0".data))] "k = 1".data = "k = 1".data
    ∧ ∀ text : Str, writeBuf [("x".data, ("9".data, "0".data))] text
        = ((rustLines text).map
            (fun l => rewriteLine [("x".data, ("9".data, "0".data))] l ++ ['\n'])).flatten :=
  @claim_C4 [("x".data, ("9".data, "0".data))] "k = 1".data
    (by exact (by decide : alookup (trim "k ".data) [("x".data, ("9".data, "0".data))] = none))

/-- C5: an empty ChangeSet short-circuits: `write_changes` performs no
filesystem action for a category with an empty change-set (the
filesystem is returned unchanged, whatever the paths are), and the
spec's example `thrust = 100 ; max` against `thrust -> 100` indeed
computes an empty ChangeSet. -/
theorem claim_C5 :
    (∀ (p₁ p₂ : Str) (fs : FS),
      Diff.write_changes ⟨⟨p₁, []⟩, ⟨p₂, []⟩⟩ fs = some fs)
    ∧ (∀ (p₁ : Str) (fm : PathChanges) (fs : FS),
      Diff.write_changes ⟨⟨p₁, []⟩, fm⟩ fs
        = (if fm.changes.isEmpty then some fs else write_modified_file fm fs))
    ∧ build_diff [("thrust".data, "100".data)] "thrust = 100 ; max\n".data = [] := by
  refine ⟨fun p₁ p₂ fs => rfl, fun p₁ fm fs => rfl, by decide⟩

/-- C6 (counterexample): the last matching line does not always win.
With mapping `k -> 100` and the file `k = 1\nk = 100\n`, the last line
with key `k` is `k = 100` (raw value region `" 100"`), but its value
already matches, so it is skipped and the recorded previous value stays
`" 1"` from the first line. -/
theorem claim_C6_counterexample :
    alookup "k".data (build_diff [("k".data, "100".data)] "k = 1\nk = 100\n".data)
      = some ("100".data, " 1".data)
    ∧ (" 1".data : Str) ≠ " 100".data := by
  refine ⟨by decide, by decide⟩

/-- C6 (amended): the ChangeSet entry for a key is the entry of the
last line whose trimmed key matches, is in the mapping, **and** whose
trimmed value differs from the desired value; matching lines whose
value already equals the desired value are skipped and do not
overwrite, and duplicates raise no error (the function is total). -/
theorem claim_C6 (patch : List (Str × Str)) (text k : Str) :
    alookup k (build_diff patch text)
      = (((rustLines text).filterMap (lineEntry patch)).filter
          (fun e => decide (e.1 = k))).getLast?.map Prod.snd :=
  build_diff_lookup patch text k

/-- C7: after a successful rewrite, the backup path holds exactly the
pre-rewrite content and the original path holds exactly the rewritten
buffer; the rename is performed on the pre-rewrite file before the new
content is written. -/
theorem claim_C7 {pc : PathChanges} {fs : FS} {text : Str}
    (hread : alookup pc.path fs = some text) (_hne : pc.changes ≠ []) :
    ∃ fs', write_modified_file pc fs = some fs'
      ∧ alookup (withExtension pc.path "bak.cfg".data) fs' = some text
      ∧ alookup pc.path fs' = some (writeBuf pc.changes text) := by
  refine ⟨_, write_modified_file_eq hread, ?_, ?_⟩
  · have hb : withExtension pc.path "bak.cfg".data ≠ pc.path :=
      withExtension_ne (by decide)
    unfold fsWrite
    rw [alookup_ainsert_ne _ _ (fun hh => hb hh.symm), alookup_ainsert_self]
  · unfold fsWrite
    rw [alookup_ainsert_self]

theorem claim_C7_witness :
    alookup "pkg/engines.cfg".data [("pkg/engines.cfg".data, "k = 1\n".data)]
      = some "k = 1\n".data
    ∧ ([("k".data, ("2".data, " 1".data))] : List (Str × (Str × Str))) ≠ []
    ∧ (∃ fs', write_modified_file
          ⟨"pkg/engines.cfg".data, [("k".data, ("2".data, " 1".data))]⟩
          [("pkg/engines.cfg".data, "k = 1\n".data)] = some fs'
        ∧ alookup (withExtension "pkg/engines.cfg".data "bak.cfg".data) fs'
            = some "k = 1\n".data
        ∧ alookup "pkg/engines.cfg".data fs'
            = some (writeBuf [("k".data, ("2".data, " 1".data))] "k = 1\n".data)) :=
  ⟨by decide, by decide, claim_C7 (by decide) (by decide)⟩

/-- C8: a mapping key that is the trimmed key of no assignment line of
the file produces no ChangeSet entry and no error. -/
theorem claim_C8 {patch : List (Str × Str)} {text k : Str}
    (h : (rustLines text).all (fun m => !(hasKey k m)) = true) :
    alookup k (build_diff patch text) = none := by
  rw [build_diff_lookup]
  have hfilter : ((rustLines text).filterMap (lineEntry patch)).filter
      (fun e => decide (e.1 = k)) = [] := by
    rw [List.filter_eq_nil_iff]
    intro e he
    obtain ⟨m, hm, hme⟩ := List.mem_filterMap.mp he
    rcases e with ⟨k', v, o⟩
    obtain ⟨key₀, tail, hsplit, hkey, -, -, -⟩ := lineEntry_eq_some hme
    have hhm := List.all_eq_true.mp h m hm
    unfold hasKey at hhm
    rw [hsplit] at hhm
    simp at hhm
    intro hdec
    rw [decide_eq_true_eq] at hdec
    exact hhm (hkey.trans hdec)
  rw [hfilter]
  rfl

theorem claim_C8_witness :
    ((rustLines "a = 1\nplain\n".data).all (fun m => !(hasKey "absent".data m)) = true)
    ∧ alookup "absent".data
        (build_diff [("absent".data, "2".data)] "a = 1\nplain\n".data) = none :=
  ⟨by decide, claim_C8 (by decide)⟩

/-- C9: the previous value stored in a ChangeEntry is the raw untrimmed
value region of some source line (the text between the first `'='` and
the first `';'`, or the end of the line, whitespace included), and this
raw text is interpolated verbatim as the old value of the annotated
output line, as is the raw comment text after the original `';'`. -/
theorem claim_C9 {patch : List (Str × Str)} {text k v o : Str}
    (h : alookup k (build_diff patch text) = some (v, o)) :
    (∃ m ∈ rustLines text, ∃ key₀ tail, splitOnceChar '=' m = some (key₀, tail)
      ∧ trim key₀ = k ∧ o = valueRegion tail)
    ∧ (∀ line key₀ tail, splitOnceChar '=' line = some (key₀, tail) → trim key₀ = k →
        splitOnceChar ';' tail = none →
        rewriteLine (build_diff patch text) line
          = k ++ " = ".data ++ v ++ " ; ".data ++ o)
    ∧ (∀ line key₀ tail w c, splitOnceChar '=' line = some (key₀, tail) → trim key₀ = k →
        splitOnceChar ';' tail = some (w, c) →
        rewriteLine (build_diff patch text) line
          = k ++ " = ".data ++ v ++ " ; ".data ++ o ++ " ; ".data ++ c) := by
  refine ⟨?_, ?_, ?_⟩
  · obtain ⟨m, hm, hme⟩ := build_diff_entry h
    obtain ⟨key₀, tail, hsplit, hkey, -, ho, -⟩ := lineEntry_eq_some hme
    exact ⟨m, hm, key₀, tail, hsplit, hkey, ho⟩
  · intro line key₀ tail hsplit hk hcomment
    exact (rewriteLine_format hsplit hk h).1 hcomment
  · intro line key₀ tail w c hsplit hk hcomment
    exact (rewriteLine_format hsplit hk h).2 w c hcomment

theorem claim_C9_witness :
    (alookup "k".data (build_diff [("k".data, "2".data)] "k = 1\n".data)
      = some ("2".data, " 1".data))
    ∧ (∃ m ∈ rustLines "k = 1\n".data, ∃ key₀ tail,
        splitOnceChar '=' m = some (key₀, tail)
        ∧ trim key₀ = "k".data ∧ " 1".data = valueRegion tail) :=
  ⟨by decide,
    (@claim_C9 [("k".data, "2".data)] "k = 1\n".data "k".data "2".data " 1".data
      (by decide)).1⟩

/-- C10: every line of the rewritten buffer, passthrough lines
included, is terminated by a single `'\n'`: the buffer is the
concatenation of the processed lines each followed by `'\n'`; a CRLF
file is rewritten with `'\n'` endings, and a file without a final
newline gains one. -/
theorem claim_C10 :
    (∀ (changes : List (Str × (Str × Str))) (text : Str),
      writeBuf changes text
        = ((rustLines text).map (fun l => rewriteLine changes l ++ ['\n'])).flatten)
    ∧ writeBuf [] "a = 1\r\nb\r\n".data = "a = 1\nb\n".data
    ∧ writeBuf [] "x".data = "x\n".data :=
  ⟨writeBuf_eq_flatten, by decide, by decide⟩

end Patchcfg
